import Mathlib

/-!
Verification of the segment-tree module of the repository
(baselines/common/operation.py): the classes SegmentTree, SumSegmentTree
and MinSegmentTree.

Embedding conventions.
* The tree is a Lean list; Python float values are modelled as exact
  rationals (the min tree uses WithTop so that the fill value, Python
  float inf, is the top element).
* Python list indexing is modelled faithfully: a negative index wraps
  once by the length, an index outside the window raises IndexError,
  which is modelled as none.
* The recursive range fold and the two while loops carry an explicit fuel
  argument; the call sites pass a bound that provably dominates the
  iteration count on every run on which Python terminates, and fuel
  exhaustion (value none, or for the ancestor loop the unchanged list)
  models a run on which Python does not terminate.  All definitions are
  otherwise a direct transcription of the source.
-/

set_option maxRecDepth 4000
set_option maxHeartbeats 1600000
set_option linter.unusedSectionVars false
set_option linter.unusedVariables false

/-- The Python class SegmentTree: a capacity, the flat node list of length
2 * capacity, and the binary fold operation. -/
structure SegmentTree (α : Type) where
  capacity : ℕ
  tree : List α
  operation : α → α → α

variable {α : Type} [Inhabited α]

/-- SegmentTree.__init__: all 2 * capacity slots are filled with the
given initial value. -/
def SegmentTree.init (capacity : ℕ) (op : α → α → α) (initValue : α) : SegmentTree α :=
  ⟨capacity, List.replicate (2 * capacity) initValue, op⟩

/-- Python list assignment l[i] = v: a negative index wraps once by the
length; an index outside [-len, len) raises IndexError (none). -/
def listAssign (l : List α) (i : ℤ) (v : α) : Option (List α) :=
  if 0 ≤ i ∧ i < (l.length : ℤ) then some (l.set i.toNat v)
  else if -(l.length : ℤ) ≤ i ∧ i < 0 then some (l.set ((l.length : ℤ) + i).toNat v)
  else none

/-- Python list read l[i], with the same index semantics as `listAssign`. -/
def listRead (l : List α) (i : ℤ) : Option α :=
  if 0 ≤ i ∧ i < (l.length : ℤ) then l.get? i.toNat
  else if -(l.length : ℤ) ≤ i ∧ i < 0 then l.get? (((l.length : ℤ) + i).toNat)
  else none

/-- The while loop of SegmentTree.__setitem__: starting from the parent of
the written slot, recompute each node as the operation of its two
children and halve the index, while the index is at least 1.  Fuel
idx + 1 always dominates the iteration count. -/
def SegmentTree.ancLoop (op : α → α → α) : ℕ → List α → ℕ → List α
  | 0, l, _ => l
  | fuel + 1, l, idx =>
    if 1 ≤ idx then
      SegmentTree.ancLoop op fuel
        (l.set idx (op (l.getI (2 * idx)) (l.getI (2 * idx + 1)))) (idx / 2)
    else l

/-- SegmentTree.__setitem__(idx, val): shift the index by the capacity,
write the slot, then run the ancestor loop from the floor half of the
(possibly still negative) position. -/
def SegmentTree.setItem (t : SegmentTree α) (idx : ℤ) (val : α) : Option (SegmentTree α) :=
  let pos : ℤ := idx + (t.capacity : ℤ)
  (listAssign t.tree pos val).map fun l =>
    let p : ℕ := (pos.fdiv 2).toNat
    { t with tree := SegmentTree.ancLoop t.operation (p + 1) l p }

/-- SegmentTree.__getitem__(idx): read the slot capacity + idx. -/
def SegmentTree.getItem (t : SegmentTree α) (idx : ℤ) : Option α :=
  listRead t.tree ((t.capacity : ℤ) + idx)

/-- SegmentTree._operate_helper with its inclusive query bounds start..e;
node covers the inclusive slot range ns..ne.  Fuel capacity + 1 always
dominates the recursion depth reached from SegmentTree.operate. -/
def SegmentTree.operateHelper (op : α → α → α) (l : List α) :
    ℕ → ℤ → ℤ → ℕ → ℤ → ℤ → Option α
  | 0, _, _, _, _, _ => none
  | fuel + 1, start, e, node, ns, ne =>
    if start = ns ∧ e = ne then l.get? node
    else
      let mid := (ns + ne).fdiv 2
      if e ≤ mid then SegmentTree.operateHelper op l fuel start e (2 * node) ns mid
      else if mid + 1 ≤ start then
        SegmentTree.operateHelper op l fuel start e (2 * node + 1) (mid + 1) ne
      else
        (SegmentTree.operateHelper op l fuel start mid (2 * node) ns mid).bind fun a =>
          (SegmentTree.operateHelper op l fuel (mid + 1) e (2 * node + 1) (mid + 1) ne).map
            fun b => op a b

/-- SegmentTree.operate(start, end): an end at most 0 is shifted up by the
capacity, then the bound is made inclusive and the helper is run from the
root. -/
def SegmentTree.operate (t : SegmentTree α) (start e : ℤ) : Option α :=
  let e1 : ℤ := if e ≤ 0 then e + (t.capacity : ℤ) else e
  SegmentTree.operateHelper t.operation t.tree (t.capacity + 1) start (e1 - 1) 1 0
    ((t.capacity : ℤ) - 1)

/-- The Python class SumSegmentTree: operation is addition, fill value 0. -/
def sumSegmentTree (capacity : ℕ) : SegmentTree ℚ :=
  SegmentTree.init capacity (fun a b => a + b) 0

/-- SumSegmentTree.sum delegates to operate. -/
def SegmentTree.sum (t : SegmentTree ℚ) (start e : ℤ) : Option ℚ :=
  t.operate start e

/-- The while loop of SumSegmentTree.retrieve: while idx is below the
capacity, descend to the left child when its stored value exceeds the
upper bound, otherwise subtract that value and descend to the right
child; at a leaf return idx - capacity. -/
def SegmentTree.retrieveAux (l : List ℚ) (c : ℕ) : ℕ → ℕ → ℚ → Option ℕ
  | 0, _, _ => none
  | fuel + 1, idx, ub =>
    if idx < c then
      if ub < l.getI (2 * idx) then SegmentTree.retrieveAux l c fuel (2 * idx) ub
      else SegmentTree.retrieveAux l c fuel (2 * idx + 1) (ub - l.getI (2 * idx))
    else some (idx - c)

/-- SumSegmentTree.retrieve(upperbound). -/
def SegmentTree.retrieve (t : SegmentTree ℚ) (ub : ℚ) : Option ℕ :=
  SegmentTree.retrieveAux t.tree t.capacity (t.capacity + 1) 1 ub

/-- The Python class MinSegmentTree: operation is min, fill value plus
infinity. -/
def minSegmentTree (capacity : ℕ) : SegmentTree (WithTop ℚ) :=
  SegmentTree.init capacity (fun a b => min a b) ⊤

/-- MinSegmentTree.min delegates to operate. -/
def SegmentTree.min (t : SegmentTree (WithTop ℚ)) (start e : ℤ) : Option (WithTop ℚ) :=
  t.operate start e

/-- The fold invariant: every internal node stores the operation of its
two children. -/
abbrev SegmentTree.inv (op : α → α → α) (c : ℕ) (l : List α) : Prop :=
  ∀ j, j < c → 1 ≤ j → l.getI j = op (l.getI (2 * j)) (l.getI (2 * j + 1))

/-- Apply a sequence of set calls from left to right. -/
def SegmentTree.applyAll (t : SegmentTree α) : List (ℕ × α) → Option (SegmentTree α)
  | [] => some t
  | p :: ps => (t.setItem (p.1 : ℤ) p.2).bind fun u => SegmentTree.applyAll u ps

/-- The raw leaf values at external indices [a, b). -/
def SegmentTree.leafSlice (t : SegmentTree α) (a b : ℕ) : List α :=
  (t.tree.drop (t.capacity + a)).take (b - a)

/-- The prefix-sum function of a sum tree: the sum of the raw leaf values
at external indices [a, b). -/
def SegmentTree.psum (t : SegmentTree ℚ) (a b : ℕ) : ℚ :=
  (t.leafSlice a b).sum

/-- Fold of a nonempty list without an initial value. -/
def foldNE (op : α → α → α) : List α → α
  | [] => default
  | x :: xs => xs.foldl op x

/-! ### Basic list lemmas -/

theorem getI_set_self (l : List α) (i : ℕ) (v : α) (h : i < l.length) :
    (l.set i v).getI i = v := by
  rw [List.getI_eq_getElem _ (by simpa using h)]
  simp [List.getElem_set_self]

theorem getI_set_ne (l : List α) (i j : ℕ) (v : α) (h : i ≠ j) :
    (l.set i v).getI j = l.getI j := by
  rw [List.getI_eq_iget_getElem?, List.getI_eq_iget_getElem?, List.getElem?_set_ne h]

/-! ### Lemmas about the ancestor loop -/

theorem SegmentTree.ancLoop_length (op : α → α → α) (fuel : ℕ) :
    ∀ (l : List α) (idx : ℕ), (SegmentTree.ancLoop op fuel l idx).length = l.length := by
  induction fuel with
  | zero => intro l idx; rfl
  | succ fuel ih =>
    intro l idx
    rw [SegmentTree.ancLoop]
    split
    · rw [ih]; simp
    · rfl

/-- The ancestor loop only writes on the halving chain of its start index:
any slot off that chain is untouched. -/
theorem SegmentTree.ancLoop_frame (op : α → α → α) (fuel : ℕ) :
    ∀ (l : List α) (idx j : ℕ), (∀ m : ℕ, idx / 2 ^ m ≠ j) →
      (SegmentTree.ancLoop op fuel l idx).get? j = l.get? j := by
  induction fuel with
  | zero => intro l idx j _; rfl
  | succ fuel ih =>
    intro l idx j hj
    rw [SegmentTree.ancLoop]
    split
    · rw [ih]
      · rw [List.get?_eq_getElem?, List.get?_eq_getElem?, List.getElem?_set_ne]
        have := hj 0
        simpa using this
      · intro m
        have h := hj (m + 1)
        rw [Nat.div_div_eq_div_mul]
        rwa [pow_succ, mul_comm (2 ^ m) 2] at h
    · rfl

theorem SegmentTree.ancLoop_getI_frame (op : α → α → α) (fuel : ℕ)
    (l : List α) (idx j : ℕ) (hj : ∀ m : ℕ, idx / 2 ^ m ≠ j) :
    (SegmentTree.ancLoop op fuel l idx).getI j = l.getI j := by
  rw [List.getI_eq_iget_get?, List.getI_eq_iget_get?,
    SegmentTree.ancLoop_frame op fuel l idx j hj]

/-! ### The in-range unfolding of setItem -/

/-- For an in-range index, setItem succeeds and is the leaf write followed
by the ancestor loop started at the slot's parent. -/
theorem SegmentTree.setItem_eq (t : SegmentTree α) (i : ℕ) (v : α)
    (hlen : t.tree.length = 2 * t.capacity) (hi : i < t.capacity) :
    t.setItem (i : ℤ) v = some (SegmentTree.mk t.capacity
      (SegmentTree.ancLoop t.operation ((t.capacity + i) / 2 + 1)
        (t.tree.set (t.capacity + i) v) ((t.capacity + i) / 2)) t.operation) := by
  have h1 : (0 : ℤ) ≤ (i : ℤ) + (t.capacity : ℤ) := by positivity
  have h2 : (i : ℤ) + (t.capacity : ℤ) < (t.tree.length : ℤ) := by
    rw [hlen]; push_cast; omega
  have h3 : ((i : ℤ) + (t.capacity : ℤ)).toNat = t.capacity + i := by omega
  have h4 : (((i : ℤ) + (t.capacity : ℤ)).fdiv 2).toNat = (t.capacity + i) / 2 := by
    rw [Int.fdiv_eq_ediv _ (by norm_num)]
    omega
  simp only [SegmentTree.setItem, listAssign]
  rw [if_pos ⟨h1, h2⟩]
  simp only [Option.map_some', h3, h4]

/-- After setItem the slots at or above the capacity (the leaf area) hold
the values of the plainly written list: the ancestor loop never touches
them. -/
theorem SegmentTree.setItem_leaf_get? (t : SegmentTree α) (i : ℕ) (v : α)
    (hi : i < t.capacity) (j : ℕ) (hj : t.capacity ≤ j) :
    (SegmentTree.ancLoop t.operation ((t.capacity + i) / 2 + 1)
      (t.tree.set (t.capacity + i) v) ((t.capacity + i) / 2)).get? j
      = (t.tree.set (t.capacity + i) v).get? j := by
  apply SegmentTree.ancLoop_frame
  intro m
  have h1 : (t.capacity + i) / 2 / 2 ^ m ≤ (t.capacity + i) / 2 := Nat.div_le_self _ _
  have h2 : (t.capacity + i) / 2 < t.capacity := by omega
  omega

/-- The loop invariant of the ancestor loop: if every internal node off
the halving chain of the current index satisfies the fold equation, the
finished loop establishes it everywhere. -/
theorem SegmentTree.ancLoop_inv (op : α → α → α) (c : ℕ) (fuel : ℕ) :
    ∀ (l : List α) (idx : ℕ), l.length = 2 * c → idx < c → idx < fuel →
      (∀ j, j < c → 1 ≤ j → (∀ m : ℕ, idx / 2 ^ m ≠ j) →
        l.getI j = op (l.getI (2 * j)) (l.getI (2 * j + 1))) →
      SegmentTree.inv op c (SegmentTree.ancLoop op fuel l idx) := by
  induction fuel with
  | zero => intro l idx _ _ h; omega
  | succ fuel ih =>
    intro l idx hlen hidxc hfuel H
    rw [SegmentTree.ancLoop]
    by_cases h1 : 1 ≤ idx
    · rw [if_pos h1]
      apply ih _ _ (by simpa using hlen) (by omega) (by omega)
      intro j hj hj1 hchain
      have hc0 : idx / 2 ≠ j := by
        have := hchain 0
        simpa using this
      by_cases hji : j = idx
      · subst hji
        rw [getI_set_self _ _ _ (by omega), getI_set_ne _ _ _ _ (by omega),
          getI_set_ne _ _ _ _ (by omega)]
      · have hchain' : ∀ m : ℕ, idx / 2 ^ m ≠ j := by
          intro m
          match m with
          | 0 => simpa using fun h => hji h.symm
          | m + 1 =>
            have h := hchain m
            rw [Nat.div_div_eq_div_mul] at h
            rwa [pow_succ, mul_comm (2 ^ m) 2]
        rw [getI_set_ne _ _ _ _ (fun h => hji h.symm),
          getI_set_ne _ _ _ _ (by omega), getI_set_ne _ _ _ _ (by omega)]
        exact H j hj hj1 hchain'
    · rw [if_neg h1]
      intro j hj hj1
      apply H j hj hj1
      intro m
      have : idx = 0 := by omega
      simp [this]
      omega

/-- setItem with an in-range index preserves the fold invariant. -/
theorem SegmentTree.setItem_inv (t : SegmentTree α) (i : ℕ) (v : α)
    (hlen : t.tree.length = 2 * t.capacity) (hi : i < t.capacity)
    (hinv : SegmentTree.inv t.operation t.capacity t.tree) (t' : SegmentTree α)
    (h : t.setItem (i : ℤ) v = some t') :
    SegmentTree.inv t.operation t.capacity t'.tree := by
  rw [SegmentTree.setItem_eq t i v hlen hi] at h
  obtain rfl := (Option.some.injEq _ _).mp h.symm
  apply SegmentTree.ancLoop_inv _ _ _ _ _ (by simpa using hlen) (by omega) (by omega)
  intro j hj hj1 hchain
  have hc0 : (t.capacity + i) / 2 ≠ j := by
    have := hchain 0
    simpa using this
  rw [getI_set_ne _ _ _ _ (by omega), getI_set_ne _ _ _ _ (by omega),
    getI_set_ne _ _ _ _ (by omega)]
  exact hinv j hj hj1

theorem getI_replicate (n m : ℕ) (a : α) (h : m < n) :
    (List.replicate n a).getI m = a := by
  rw [List.getI_eq_getElem _ (by simpa using h)]
  simp

/-- A set sequence with in-range indices succeeds and preserves the fold
invariant together with the basic shape facts. -/
theorem SegmentTree.applyAll_inv (c : ℕ) (op : α → α → α) :
    ∀ (ops : List (ℕ × α)) (t : SegmentTree α), t.capacity = c → t.operation = op →
      t.tree.length = 2 * c → SegmentTree.inv op c t.tree → (∀ p ∈ ops, p.1 < c) →
      ∃ t', SegmentTree.applyAll t ops = some t' ∧ SegmentTree.inv op c t'.tree ∧
        t'.capacity = c ∧ t'.operation = op ∧ t'.tree.length = 2 * c := by
  intro ops
  induction ops with
  | nil => intro t h1 h2 h3 h4 _; exact ⟨t, rfl, h4, h1, h2, h3⟩
  | cons p ps ih =>
    intro t h1 h2 h3 h4 hops
    have hi : p.1 < t.capacity := by rw [h1]; exact hops p (List.mem_cons_self p ps)
    have hset := SegmentTree.setItem_eq t p.1 p.2 (by rw [h3, h1]) hi
    rw [SegmentTree.applyAll, hset, Option.some_bind]
    apply ih
    · simpa using h1
    · simpa using h2
    · simp only [SegmentTree.ancLoop_length, List.length_set]
      exact h3
    · rw [show op = t.operation from h2.symm, show c = t.capacity from h1.symm]
      exact SegmentTree.setItem_inv t p.1 p.2 (by rw [h3, h1]) hi
        (by rw [h2, h1]; exact h4) _ hset
    · intro q hq
      exact hops q (List.mem_cons_of_mem p hq)

/-- C10: for every SegmentTree, every in-range index i and every value v,
set(i, v) succeeds and a following get(i) returns exactly v. -/
theorem set_then_get (t : SegmentTree α) (i : ℕ) (v : α)
    (hlen : t.tree.length = 2 * t.capacity) (hi : i < t.capacity) :
    ∃ t', t.setItem (i : ℤ) v = some t' ∧ t'.getItem (i : ℤ) = some v := by
  refine ⟨_, SegmentTree.setItem_eq t i v hlen hi, ?_⟩
  have hlen' : (SegmentTree.ancLoop t.operation ((t.capacity + i) / 2 + 1)
      (t.tree.set (t.capacity + i) v) ((t.capacity + i) / 2)).length = 2 * t.capacity := by
    simp only [SegmentTree.ancLoop_length, List.length_set]
    exact hlen
  simp only [SegmentTree.getItem, listRead, hlen']
  rw [if_pos ⟨by positivity, by push_cast; omega⟩]
  have h5 : ((t.capacity : ℤ) + (i : ℤ)).toNat = t.capacity + i := by omega
  rw [h5, SegmentTree.setItem_leaf_get? t i v hi _ (by omega),
    List.get?_eq_getElem?, List.getElem?_set_self (by omega)]

theorem set_then_get_witness :
    ∃ t', (⟨2, [0, 0, 0, 0], fun a b => a + b⟩ : SegmentTree ℤ).setItem (1 : ℤ) 7 = some t' ∧
      t'.getItem (1 : ℤ) = some 7 :=
  set_then_get ⟨2, [0, 0, 0, 0], fun a b => a + b⟩ 1 7 (by decide) (by decide)

/-- C6: setItem with in-range index i only writes the leaf slot
capacity + i and recomputes its ancestors: every other leaf (read through
get) and every internal node off the ancestor chain of the written slot
is unchanged. -/
theorem setItem_frame (t : SegmentTree α) (i j : ℕ) (v : α)
    (hlen : t.tree.length = 2 * t.capacity) (hi : i < t.capacity) (hj : j < t.capacity)
    (hne : j ≠ i) :
    ∃ t', t.setItem (i : ℤ) v = some t' ∧ t'.getItem (j : ℤ) = t.getItem (j : ℤ) ∧
      ∀ n, 1 ≤ n → n < t.capacity → (∀ m : ℕ, (t.capacity + i) / 2 ^ m ≠ n) →
        t'.tree.getI n = t.tree.getI n := by
  refine ⟨_, SegmentTree.setItem_eq t i v hlen hi, ?_, ?_⟩
  · have hlen' : (SegmentTree.ancLoop t.operation ((t.capacity + i) / 2 + 1)
        (t.tree.set (t.capacity + i) v) ((t.capacity + i) / 2)).length = 2 * t.capacity := by
      simp only [SegmentTree.ancLoop_length, List.length_set]
      exact hlen
    simp only [SegmentTree.getItem, listRead, hlen', hlen]
    rw [if_pos ⟨by positivity, by push_cast; omega⟩,
      if_pos ⟨by positivity, by push_cast; omega⟩]
    have h5 : ((t.capacity : ℤ) + (j : ℤ)).toNat = t.capacity + j := by omega
    rw [h5, SegmentTree.setItem_leaf_get? t i v hi _ (by omega),
      List.get?_eq_getElem?, List.get?_eq_getElem?, List.getElem?_set_ne (by omega)]
  · intro n h1 hn hchain
    rw [SegmentTree.ancLoop_getI_frame]
    · exact getI_set_ne _ _ _ _ (by omega)
    · intro m
      have h := hchain (m + 1)
      rw [Nat.div_div_eq_div_mul]
      rwa [pow_succ, mul_comm (2 ^ m) 2] at h

theorem setItem_frame_witness :
    ∃ t', (⟨2, [0, 0, 0, 0], fun a b => a + b⟩ : SegmentTree ℤ).setItem (1 : ℤ) 7 = some t' ∧
      t'.getItem (0 : ℤ) = (⟨2, [0, 0, 0, 0], fun a b => a + b⟩ : SegmentTree ℤ).getItem (0 : ℤ) ∧
      ∀ n, 1 ≤ n → n < 2 → (∀ m : ℕ, (2 + 1) / 2 ^ m ≠ n) →
        t'.tree.getI n = ([0, 0, 0, 0] : List ℤ).getI n :=
  setItem_frame ⟨2, [0, 0, 0, 0], fun a b => a + b⟩ 1 0 7 (by decide) (by decide)
    (by decide) (by decide)

/-- C3: starting from a freshly constructed SegmentTree (all 2 * capacity
slots equal to the identity), after any finite sequence of in-range set
calls every internal node i in [1, capacity) stores the operation of its
two children. -/
theorem inv_after_set_sequence (c : ℕ) (op : α → α → α) (e : α) (hid : op e e = e)
    (ops : List (ℕ × α)) (hops : ∀ p ∈ ops, p.1 < c) :
    ∃ t', SegmentTree.applyAll (SegmentTree.init c op e) ops = some t' ∧
      SegmentTree.inv op c t'.tree := by
  have hinv0 : SegmentTree.inv op c (SegmentTree.init c op e).tree := by
    intro j hj hj1
    simp only [SegmentTree.init]
    rw [getI_replicate _ _ _ (by omega), getI_replicate _ _ _ (by omega),
      getI_replicate _ _ _ (by omega), hid]
  obtain ⟨t', h1, h2, _⟩ := SegmentTree.applyAll_inv c op ops (SegmentTree.init c op e)
    rfl rfl (by simp [SegmentTree.init]) hinv0 hops
  exact ⟨t', h1, h2⟩

theorem inv_after_set_sequence_witness :
    ∃ t', SegmentTree.applyAll (SegmentTree.init 2 (fun a b => a + b) (0 : ℤ))
        [(0, 3), (1, 4)] = some t' ∧
      SegmentTree.inv (fun a b => a + b) 2 t'.tree :=
  inv_after_set_sequence 2 (fun a b => a + b) 0 (by decide) [(0, 3), (1, 4)] (by decide)

/-- C5 counterexample: set with the out-of-range index -1 does not fail;
it wraps to slot capacity - 1 = 3 (an internal node), silently mutating
the tree. -/
theorem setItem_negative_index_counterexample :
    ((sumSegmentTree 4).setItem (-1) 5).map SegmentTree.tree
      = some [0, 5, 0, 5, 0, 0, 0, 0] ∧
    (sumSegmentTree 4).tree = [0, 0, 0, 0, 0, 0, 0, 0] ∧
    ([0, 5, 0, 5, 0, 0, 0, 0] : List ℚ) ≠ [0, 0, 0, 0, 0, 0, 0, 0] :=
  ⟨by with_unfolding_all rfl, by with_unfolding_all rfl,
    of_decide_eq_true (by with_unfolding_all rfl)⟩

/-- C5 amended: set with index at least capacity fails with an index
error (none) and mutates nothing; a negative index in range of Python
wrap-around is not rejected (see the counterexample). -/
theorem setItem_ge_capacity_none (t : SegmentTree α) (idx : ℤ) (v : α)
    (hlen : t.tree.length = 2 * t.capacity) (hidx : (t.capacity : ℤ) ≤ idx) :
    t.setItem idx v = none := by
  have hc1 : ¬((0 : ℤ) ≤ idx + (t.capacity : ℤ) ∧
      idx + (t.capacity : ℤ) < (t.tree.length : ℤ)) := by
    rw [hlen]; push_cast; omega
  have hc2 : ¬(-(t.tree.length : ℤ) ≤ idx + (t.capacity : ℤ) ∧
      idx + (t.capacity : ℤ) < 0) := by
    rw [hlen]; push_cast; omega
  simp only [SegmentTree.setItem, listAssign, if_neg hc1, if_neg hc2, Option.map_none']

theorem setItem_ge_capacity_none_witness :
    (⟨2, [0, 3, 1, 2], fun a b => a + b⟩ : SegmentTree ℤ).setItem 2 7 = none :=
  setItem_ge_capacity_none ⟨2, [0, 3, 1, 2], fun a b => a + b⟩ 2 7 (by decide) (by decide)

/-- C4 counterexample: on a capacity-2 sum tree with leaves 1, 2, the
call operate(0, -1) folds only leaf 0 (value 1), while operate(0, 2)
folds both leaves (value 3): a negative end is not treated as the
capacity. -/
theorem operate_end_negative_counterexample :
    (⟨2, [0, 3, 1, 2], fun a b => a + b⟩ : SegmentTree ℚ).operate 0 (-1) = some 1 ∧
    (⟨2, [0, 3, 1, 2], fun a b => a + b⟩ : SegmentTree ℚ).operate 0 2 = some 3 ∧
    (⟨2, [0, 3, 1, 2], fun a b => a + b⟩ : SegmentTree ℚ).operate 0 (-1)
      ≠ (⟨2, [0, 3, 1, 2], fun a b => a + b⟩ : SegmentTree ℚ).operate 0 2 :=
  ⟨by with_unfolding_all rfl, by with_unfolding_all rfl,
    of_decide_eq_true (by with_unfolding_all rfl)⟩

/-- C4 amended: an end at most 0 is shifted up by the capacity, so for
-capacity < end ≤ 0 the call operate(start, end) equals
operate(start, end + capacity); in particular operate(start, 0) folds
through the last element, and operate(0, 0) folds the entire structure. -/
theorem operate_end_nonpos_shift (t : SegmentTree α) (start e : ℤ)
    (h1 : -(t.capacity : ℤ) < e) (h2 : e ≤ 0) :
    t.operate start e = t.operate start (e + (t.capacity : ℤ)) := by
  simp only [SegmentTree.operate]
  rw [if_pos h2, if_neg (by omega : ¬(e + (t.capacity : ℤ) ≤ 0))]

theorem operate_end_nonpos_shift_witness :
    (⟨2, [0, 3, 1, 2], fun a b => a + b⟩ : SegmentTree ℤ).operate 0 0
      = (⟨2, [0, 3, 1, 2], fun a b => a + b⟩ : SegmentTree ℤ).operate 0 (0 + 2) :=
  operate_end_nonpos_shift ⟨2, [0, 3, 1, 2], fun a b => a + b⟩ 0 0 (by decide) (by decide)

/-! ### Fold and slice lemmas -/

theorem foldl_op_assoc (op : α → α → α)
    (hassoc : ∀ a b c, op (op a b) c = op a (op b c)) :
    ∀ (l : List α) (a b : α), List.foldl op (op a b) l = op a (List.foldl op b l) := by
  intro l
  induction l with
  | nil => intro a b; rfl
  | cons x xs ih =>
    intro a b
    show List.foldl op (op (op a b) x) xs = _
    rw [hassoc, ih]
    rfl

theorem foldNE_append (op : α → α → α)
    (hassoc : ∀ a b c, op (op a b) c = op a (op b c))
    (l1 l2 : List α) (h1 : l1 ≠ []) (h2 : l2 ≠ []) :
    foldNE op (l1 ++ l2) = op (foldNE op l1) (foldNE op l2) := by
  match l1, l2 with
  | x :: xs, y :: ys =>
    show foldNE op (x :: (xs ++ y :: ys)) = _
    simp only [foldNE, List.foldl_append, List.foldl_cons]
    rw [foldl_op_assoc op hassoc]

theorem foldNE_singleton (op : α → α → α) (x : α) : foldNE op [x] = x := rfl

theorem foldNE_eq_foldl (op : α → α → α) (e0 : α) (hid : ∀ x, op e0 x = x)
    (l : List α) (h : l ≠ []) : foldNE op l = l.foldl op e0 := by
  match l with
  | x :: xs =>
    show xs.foldl op x = _
    rw [List.foldl_cons, hid]

theorem slice_append (l : List α) (a m n : ℕ) :
    (l.drop a).take m ++ (l.drop (a + m)).take n = (l.drop a).take (m + n) := by
  rw [List.take_add, List.drop_drop]

theorem slice_singleton (l : List α) (a : ℕ) (h : a < l.length) :
    (l.drop a).take 1 = [l.getI a] := by
  rw [List.drop_eq_getElem_cons h, List.take_succ_cons, List.take_zero,
    List.getI_eq_getElem _ h]

theorem slice_length (l : List α) (a m : ℕ) (h : a + m ≤ l.length) :
    ((l.drop a).take m).length = m := by
  simp only [List.length_take, List.length_drop]
  omega

theorem slice_ne_nil (l : List α) (a m : ℕ) (h : a + m ≤ l.length) (hm : 1 ≤ m) :
    (l.drop a).take m ≠ [] := by
  intro hc
  have := slice_length l a m h
  rw [hc] at this
  simp at this
  omega

/-! ### Correctness of the stored fold values -/

/-- In a tree with power-of-two capacity satisfying the fold invariant,
the node n whose subtree spans the slot block starting at n * 2 ^ k of
width 2 ^ k stores the fold of the raw leaf values of that block. -/
theorem SegmentTree.node_val (op : α → α → α)
    (hassoc : ∀ a b c, op (op a b) c = op a (op b c))
    (l : List α) (h c : ℕ) (hcap : c = 2 ^ h) (hlen : l.length = 2 * c)
    (hinv : SegmentTree.inv op c l) :
    ∀ (k n : ℕ), c ≤ n * 2 ^ k → n * 2 ^ k < 2 * c →
      l.getI n = foldNE op ((l.drop (n * 2 ^ k)).take (2 ^ k)) := by
  intro k
  induction k with
  | zero =>
    intro n hn1 hn2
    simp only [pow_zero, mul_one] at hn1 hn2 ⊢
    rw [slice_singleton l n (by omega), foldNE_singleton]
  | succ k ih =>
    intro n hn1 hn2
    have hP : (0:ℕ) < 2 ^ k := Nat.pos_pow_of_pos k (by norm_num)
    have hQ : (2:ℕ) ^ (k + 1) = 2 * 2 ^ k := by ring
    have hn0 : 1 ≤ n := by
      by_contra hc
      push_neg at hc
      interval_cases n
      simp at hn1
      omega
    have hnc : n < c := by
      have : 2 * n ≤ n * 2 ^ (k + 1) := by
        calc 2 * n = n * 2 := by ring
        _ ≤ n * 2 ^ (k + 1) := Nat.mul_le_mul_left n (by
            rw [hQ]; omega)
      omega
    -- the right child block stays inside the slot range
    have hkh : k + 1 < h + 1 := by
      have h1 : (2:ℕ) ^ (k + 1) ≤ n * 2 ^ (k + 1) := by
        calc (2:ℕ) ^ (k + 1) = 1 * 2 ^ (k + 1) := by ring
        _ ≤ n * 2 ^ (k + 1) := Nat.mul_le_mul_right _ hn0
      have h2 : 2 * c = 2 ^ (h + 1) := by rw [hcap]; ring
      have := lt_of_le_of_lt h1 (by omega : n * 2 ^ (k + 1) < 2 ^ (h + 1))
      exact (Nat.pow_lt_pow_iff_right (by norm_num)).mp this
    have hright : n * 2 ^ (k + 1) + 2 ^ (k + 1) ≤ 2 * c := by
      have h2 : 2 * c = 2 ^ (h - k) * 2 ^ (k + 1) := by
        rw [hcap, ← pow_add, show h - k + (k + 1) = h + 1 by omega, pow_succ]
        ring
      have h3 : n < 2 ^ (h - k) := by
        apply Nat.lt_of_mul_lt_mul_right (a := 2 ^ (k + 1))
        rw [← h2]
        omega
      calc n * 2 ^ (k + 1) + 2 ^ (k + 1) = (n + 1) * 2 ^ (k + 1) := by ring
      _ ≤ 2 ^ (h - k) * 2 ^ (k + 1) := Nat.mul_le_mul_right _ (by omega)
      _ = 2 * c := h2.symm
    have hL : l.getI (2 * n) = foldNE op ((l.drop (2 * n * 2 ^ k)).take (2 ^ k)) := by
      apply ih <;> rw [show 2 * n * 2 ^ k = n * 2 ^ (k + 1) by ring] <;> omega
    have hR : l.getI (2 * n + 1)
        = foldNE op ((l.drop ((2 * n + 1) * 2 ^ k)).take (2 ^ k)) := by
      apply ih <;> rw [show (2 * n + 1) * 2 ^ k = n * 2 ^ (k + 1) + 2 ^ k by ring] <;> omega
    rw [hinv n hnc hn0, hL, hR]
    rw [show (2 * n + 1) * 2 ^ k = n * 2 ^ (k + 1) + 2 ^ k by ring,
      show 2 * n * 2 ^ k = n * 2 ^ (k + 1) by ring]
    rw [← foldNE_append op hassoc _ _
      (slice_ne_nil l _ _ (by omega) (by omega))
      (slice_ne_nil l _ _ (by omega) (by omega))]
    rw [slice_append, show (2:ℕ) ^ k + 2 ^ k = 2 ^ (k + 1) by rw [hQ]; ring]

/-- The block of slots below a node stays inside the slot range. -/
theorem pow_block_bound (h c k n : ℕ) (hcap : c = 2 ^ h) (hn0 : 1 ≤ n)
    (hn2 : n * 2 ^ (k + 1) < 2 * c) :
    n * 2 ^ (k + 1) + 2 ^ (k + 1) ≤ 2 * c := by
  have hkh : k + 1 < h + 1 := by
    have h1 : (2:ℕ) ^ (k + 1) ≤ n * 2 ^ (k + 1) := by
      calc (2:ℕ) ^ (k + 1) = 1 * 2 ^ (k + 1) := by ring
      _ ≤ n * 2 ^ (k + 1) := Nat.mul_le_mul_right _ hn0
    have h2 : 2 * c = 2 ^ (h + 1) := by rw [hcap]; ring
    have := lt_of_le_of_lt h1 (by omega : n * 2 ^ (k + 1) < 2 ^ (h + 1))
    exact (Nat.pow_lt_pow_iff_right (by norm_num)).mp this
  have h2 : 2 * c = 2 ^ (h - k) * 2 ^ (k + 1) := by
    rw [hcap, ← pow_add, show h - k + (k + 1) = h + 1 by omega, pow_succ]
    ring
  have h3 : n < 2 ^ (h - k) := by
    apply Nat.lt_of_mul_lt_mul_right (a := 2 ^ (k + 1))
    rw [← h2]
    omega
  calc n * 2 ^ (k + 1) + 2 ^ (k + 1) = (n + 1) * 2 ^ (k + 1) := by ring
  _ ≤ 2 ^ (h - k) * 2 ^ (k + 1) := Nat.mul_le_mul_right _ (by omega)
  _ = 2 * c := h2.symm

/-- Correctness of the recursive range fold: on the slot block of node n,
a query range inside the block folds exactly the raw slots of the range. -/
theorem SegmentTree.operateHelper_correct (op : α → α → α)
    (hassoc : ∀ a b c, op (op a b) c = op a (op b c))
    (l : List α) (h c : ℕ) (hcap : c = 2 ^ h) (hlen : l.length = 2 * c)
    (hinv : SegmentTree.inv op c l) :
    ∀ (k : ℕ), ∀ (n s e fuel : ℕ), c ≤ n * 2 ^ k → n * 2 ^ k < 2 * c →
      n * 2 ^ k - c ≤ s → s ≤ e → e ≤ n * 2 ^ k - c + 2 ^ k - 1 → k < fuel →
      SegmentTree.operateHelper op l fuel (s : ℤ) (e : ℤ) n
        ((n * 2 ^ k - c : ℕ) : ℤ) ((n * 2 ^ k - c + 2 ^ k - 1 : ℕ) : ℤ)
        = some (foldNE op ((l.drop (c + s)).take (e + 1 - s))) := by
  intro k
  induction k with
  | zero =>
    intro n s e fuel hn1 hn2 hs1 hs2 hs3 hfuel
    simp only [pow_zero, mul_one] at hn1 hn2 hs1 hs3 ⊢
    obtain ⟨f, rfl⟩ : ∃ f, fuel = f + 1 := ⟨fuel - 1, by omega⟩
    rw [SegmentTree.operateHelper]
    rw [if_pos (⟨by omega, by omega⟩ : (s : ℤ) = ((n - c : ℕ) : ℤ)
      ∧ (e : ℤ) = ((n - c + 1 - 1 : ℕ) : ℤ))]
    rw [show c + s = n by omega, show e + 1 - s = 1 by omega,
      slice_singleton l n (by omega), foldNE_singleton,
      List.get?_eq_getElem?, List.getElem?_eq_getElem (by omega : n < l.length),
      List.getI_eq_getElem _ (by omega : n < l.length)]
  | succ k ih =>
    intro n s e fuel hn1 hn2 hs1 hs2 hs3 hfuel
    have hP : (0:ℕ) < 2 ^ k := Nat.pos_pow_of_pos k (by norm_num)
    have hQ : (2:ℕ) ^ (k + 1) = 2 * 2 ^ k := by ring
    have hn0 : 1 ≤ n := by
      by_contra hcon
      push_neg at hcon
      interval_cases n
      simp at hn1
      omega
    have hnc : n < c := by
      have : 2 * n ≤ n * 2 ^ (k + 1) := by
        calc 2 * n = n * 2 := by ring
        _ ≤ n * 2 ^ (k + 1) := Nat.mul_le_mul_left n (by omega)
      omega
    have hright := pow_block_bound h c k n hcap hn0 hn2
    obtain ⟨f, rfl⟩ : ∃ f, fuel = f + 1 := ⟨fuel - 1, by omega⟩
    have hfk : k < f := by omega
    rw [SegmentTree.operateHelper]
    have hmid : (((n * 2 ^ (k + 1) - c : ℕ) : ℤ)
        + ((n * 2 ^ (k + 1) - c + 2 ^ (k + 1) - 1 : ℕ) : ℤ)).fdiv 2
        = ((n * 2 ^ (k + 1) - c + 2 ^ k - 1 : ℕ) : ℤ) := by
      rw [Int.fdiv_eq_ediv _ (by norm_num)]
      omega
    simp only [hmid]
    by_cases hbase : s = n * 2 ^ (k + 1) - c ∧ e = n * 2 ^ (k + 1) - c + 2 ^ (k + 1) - 1
    · rw [if_pos (⟨by omega, by omega⟩ : (s : ℤ) = ((n * 2 ^ (k + 1) - c : ℕ) : ℤ)
        ∧ (e : ℤ) = ((n * 2 ^ (k + 1) - c + 2 ^ (k + 1) - 1 : ℕ) : ℤ))]
      rw [show c + s = n * 2 ^ (k + 1) by omega, show e + 1 - s = 2 ^ (k + 1) by omega,
        List.get?_eq_getElem?, List.getElem?_eq_getElem (by omega : n < l.length)]
      exact congrArg some (by
        rw [← List.getI_eq_getElem _ (by omega : n < l.length)]
        exact SegmentTree.node_val op hassoc l h c hcap hlen hinv (k + 1) n hn1 hn2)
    · rw [if_neg (by
        intro hcon
        apply hbase
        exact ⟨by exact_mod_cast hcon.1, by exact_mod_cast hcon.2⟩)]
      by_cases hleft : e ≤ n * 2 ^ (k + 1) - c + 2 ^ k - 1
      · rw [if_pos (by omega : (e : ℤ) ≤ ((n * 2 ^ (k + 1) - c + 2 ^ k - 1 : ℕ) : ℤ))]
        have h' := ih (2 * n) s e f (by rw [show 2 * n * 2 ^ k = n * 2 ^ (k + 1) by ring]; omega)
          (by rw [show 2 * n * 2 ^ k = n * 2 ^ (k + 1) by ring]; omega)
          (by rw [show 2 * n * 2 ^ k = n * 2 ^ (k + 1) by ring]; omega)
          hs2
          (by rw [show 2 * n * 2 ^ k = n * 2 ^ (k + 1) by ring]; omega)
          hfk
        rwa [show 2 * n * 2 ^ k = n * 2 ^ (k + 1) by ring] at h'
      · by_cases hstart : n * 2 ^ (k + 1) - c + 2 ^ k ≤ s
        · rw [if_neg (by omega : ¬((e : ℤ) ≤ ((n * 2 ^ (k + 1) - c + 2 ^ k - 1 : ℕ) : ℤ))),
            if_pos (by omega : ((n * 2 ^ (k + 1) - c + 2 ^ k - 1 : ℕ) : ℤ) + 1 ≤ (s : ℤ))]
          have h' := ih (2 * n + 1) s e f
            (by rw [show (2 * n + 1) * 2 ^ k = n * 2 ^ (k + 1) + 2 ^ k by ring]; omega)
            (by rw [show (2 * n + 1) * 2 ^ k = n * 2 ^ (k + 1) + 2 ^ k by ring]; omega)
            (by rw [show (2 * n + 1) * 2 ^ k = n * 2 ^ (k + 1) + 2 ^ k by ring]; omega)
            hs2
            (by rw [show (2 * n + 1) * 2 ^ k = n * 2 ^ (k + 1) + 2 ^ k by ring]; omega)
            hfk
          rw [show (2 * n + 1) * 2 ^ k = n * 2 ^ (k + 1) + 2 ^ k by ring] at h'
          rw [show ((n * 2 ^ (k + 1) + 2 ^ k - c : ℕ) : ℤ)
            = ((n * 2 ^ (k + 1) - c + 2 ^ k : ℕ) : ℤ) by omega,
            show ((n * 2 ^ (k + 1) + 2 ^ k - c + 2 ^ k - 1 : ℕ) : ℤ)
            = ((n * 2 ^ (k + 1) - c + 2 ^ (k + 1) - 1 : ℕ) : ℤ) by omega] at h'
          rw [show ((n * 2 ^ (k + 1) - c + 2 ^ k - 1 : ℕ) : ℤ) + 1
            = ((n * 2 ^ (k + 1) - c + 2 ^ k : ℕ) : ℤ) by omega]
          exact h'
        · rw [if_neg (by omega : ¬((e : ℤ) ≤ ((n * 2 ^ (k + 1) - c + 2 ^ k - 1 : ℕ) : ℤ))),
            if_neg (by omega : ¬(((n * 2 ^ (k + 1) - c + 2 ^ k - 1 : ℕ) : ℤ) + 1 ≤ (s : ℤ)))]
          have hL := ih (2 * n) s (n * 2 ^ (k + 1) - c + 2 ^ k - 1) f
            (by rw [show 2 * n * 2 ^ k = n * 2 ^ (k + 1) by ring]; omega)
            (by rw [show 2 * n * 2 ^ k = n * 2 ^ (k + 1) by ring]; omega)
            (by rw [show 2 * n * 2 ^ k = n * 2 ^ (k + 1) by ring]; omega)
            (by omega)
            (by rw [show 2 * n * 2 ^ k = n * 2 ^ (k + 1) by ring])
            hfk
          rw [show 2 * n * 2 ^ k = n * 2 ^ (k + 1) by ring] at hL
          have hR := ih (2 * n + 1) (n * 2 ^ (k + 1) - c + 2 ^ k) e f
            (by rw [show (2 * n + 1) * 2 ^ k = n * 2 ^ (k + 1) + 2 ^ k by ring]; omega)
            (by rw [show (2 * n + 1) * 2 ^ k = n * 2 ^ (k + 1) + 2 ^ k by ring]; omega)
            (by rw [show (2 * n + 1) * 2 ^ k = n * 2 ^ (k + 1) + 2 ^ k by ring]; omega)
            (by omega)
            (by rw [show (2 * n + 1) * 2 ^ k = n * 2 ^ (k + 1) + 2 ^ k by ring]; omega)
            hfk
          rw [show (2 * n + 1) * 2 ^ k = n * 2 ^ (k + 1) + 2 ^ k by ring] at hR
          rw [show ((n * 2 ^ (k + 1) + 2 ^ k - c : ℕ) : ℤ)
            = ((n * 2 ^ (k + 1) - c + 2 ^ k : ℕ) : ℤ) by omega,
            show ((n * 2 ^ (k + 1) + 2 ^ k - c + 2 ^ k - 1 : ℕ) : ℤ)
            = ((n * 2 ^ (k + 1) - c + 2 ^ (k + 1) - 1 : ℕ) : ℤ) by omega] at hR
          have hA : n * 2 ^ (k + 1) - c + 2 ^ k - 1 + 1 = n * 2 ^ (k + 1) - c + 2 ^ k := by
            omega
          rw [show ((n * 2 ^ (k + 1) - c + 2 ^ k - 1 : ℕ) : ℤ) + 1
            = ((n * 2 ^ (k + 1) - c + 2 ^ k : ℕ) : ℤ) by rw [← hA]; push_cast; ring]
          rw [hL, hR]
          simp only [Option.some_bind, Option.map_some']
          congr 1
          rw [← foldNE_append op hassoc _ _
            (slice_ne_nil l _ _ (by omega) (by omega))
            (slice_ne_nil l _ _ (by omega) (by omega))]
          rw [show c + (n * 2 ^ (k + 1) - c + 2 ^ k)
            = c + s + ((n * 2 ^ (k + 1) - c + 2 ^ k - 1) + 1 - s) by omega]
          rw [slice_append]
          have harith : ∀ A B : ℕ, c ≤ A → ¬(A - c + B ≤ s) → ¬(e ≤ A - c + B - 1) →
              0 < B → A - c + B - 1 + 1 - s + (e + 1 - (A - c + B)) = e + 1 - s := by
            intro A B hA h1 h2 hB
            omega
          rw [harith (n * 2 ^ (k + 1)) (2 ^ k) hn1 hstart hleft hP]

/-- C2: for every SegmentTree with power-of-two capacity whose fold
invariant holds, and every half-open range 0 ≤ start < end ≤ capacity,
operate(start, end) equals the naive linear fold of the operation, seeded
with the identity, over the raw leaf values at external indices
start, ..., end - 1. -/
theorem operate_eq_linear_fold (t : SegmentTree α) (h : ℕ) (e0 : α)
    (hcap : t.capacity = 2 ^ h) (hlen : t.tree.length = 2 * t.capacity)
    (hassoc : ∀ a b c, t.operation (t.operation a b) c = t.operation a (t.operation b c))
    (hid : ∀ x, t.operation e0 x = x)
    (hinv : SegmentTree.inv t.operation t.capacity t.tree)
    (s u : ℕ) (h1 : s < u) (h2 : u ≤ t.capacity) :
    t.operate (s : ℤ) (u : ℤ)
      = some (((t.tree.drop (t.capacity + s)).take (u - s)).foldl t.operation e0) := by
  have hc1 : 1 ≤ t.capacity := by omega
  have hch : h < t.capacity + 1 := by
    have := Nat.lt_two_pow h
    omega
  simp only [SegmentTree.operate]
  rw [if_neg (by omega : ¬((u : ℤ) ≤ 0))]
  have hcor := SegmentTree.operateHelper_correct t.operation hassoc t.tree h t.capacity
    hcap hlen hinv h 1 s (u - 1) (t.capacity + 1)
    (by rw [hcap, one_mul]) (by rw [hcap, one_mul]; have hpp : (0:ℕ) < 2 ^ h := Nat.pos_pow_of_pos h (by norm_num); omega) (by omega) (by omega)
    (by rw [hcap, one_mul]; omega) hch
  have e1 : (1 * 2 ^ h - t.capacity : ℕ) = 0 := by rw [hcap]; omega
  have e2 : (1 * 2 ^ h - t.capacity + 2 ^ h - 1 : ℕ) = t.capacity - 1 := by
    rw [hcap]; omega
  rw [e2, e1, Nat.cast_zero, show ((t.capacity - 1 : ℕ) : ℤ) = (t.capacity : ℤ) - 1 by omega,
    show ((u - 1 : ℕ) : ℤ) = (u : ℤ) - 1 by omega,
    show u - 1 + 1 - s = u - s by omega] at hcor
  rw [hcor, foldNE_eq_foldl t.operation e0 hid _ (slice_ne_nil t.tree _ _ (by omega) (by omega))]

theorem operate_eq_linear_fold_witness :
    (⟨2, [0, 3, 1, 2], fun a b => a + b⟩ : SegmentTree ℤ).operate 0 2 = some 3 := by
  have h0 := operate_eq_linear_fold (⟨2, [0, 3, 1, 2], fun a b => a + b⟩ : SegmentTree ℤ) 1 0
    (by decide) (by decide) (fun a b c => add_assoc a b c) (fun x => zero_add x)
    (by decide) 0 2 (by decide) (by decide)
  with_unfolding_all exact h0

/-- C9: a freshly constructed MinSegmentTree is filled with plus infinity
(here the top element), so min(0, 0) on an untouched tree of capacity 8
is plus infinity, never zero, and after set(3, 5/2) alone, min(0, 0) is
5/2. -/
theorem minTree_untouched_and_after_set :
    (minSegmentTree 8).min 0 0 = some ⊤ ∧
    ((minSegmentTree 8).setItem 3 (((5 : ℚ) / 2 : ℚ) : WithTop ℚ)).map (fun t => t.min 0 0)
      = some (some (((5 : ℚ) / 2 : ℚ) : WithTop ℚ)) ∧
    (⊤ : WithTop ℚ) ≠ ((0 : ℚ) : WithTop ℚ) :=
  ⟨by with_unfolding_all rfl, by with_unfolding_all rfl, WithTop.top_ne_coe⟩

/-! ### Lemmas about the sum tree and retrieve -/

theorem foldl_add_eq_sum : ∀ (l : List ℚ) (a : ℚ), l.foldl (fun x y => x + y) a = a + l.sum := by
  intro l
  induction l with
  | nil => intro a; simp
  | cons x xs ih =>
    intro a
    simp only [List.foldl_cons, List.sum_cons, ih]
    ring

theorem SegmentTree.psum_add (t : SegmentTree ℚ) (a b d : ℕ) (h1 : a ≤ b) (h2 : b ≤ d) :
    t.psum a b + t.psum b d = t.psum a d := by
  simp only [SegmentTree.psum, SegmentTree.leafSlice]
  rw [show t.capacity + b = t.capacity + a + (b - a) by omega, ← List.sum_append,
    slice_append, show b - a + (d - b) = d - a by omega]

theorem SegmentTree.psum_refl (t : SegmentTree ℚ) (a : ℕ) : t.psum a a = 0 := by
  simp [SegmentTree.psum, SegmentTree.leafSlice]

/-- The node over the block [ns, ns + 2 ^ k) of external leaves stores
that block's leaf sum. -/
theorem SegmentTree.node_sum (t : SegmentTree ℚ) (h : ℕ) (hcap : t.capacity = 2 ^ h)
    (hlen : t.tree.length = 2 * t.capacity)
    (hinv : SegmentTree.inv (fun a b => a + b) t.capacity t.tree)
    (k n : ℕ) (hn1 : t.capacity ≤ n * 2 ^ k) (hn2 : n * 2 ^ k < 2 * t.capacity) :
    t.tree.getI n
      = t.psum (n * 2 ^ k - t.capacity) (n * 2 ^ k - t.capacity + 2 ^ k) := by
  have hc1 : 1 ≤ t.capacity := by rw [hcap]; exact Nat.pos_pow_of_pos h (by norm_num)
  have hP : (0:ℕ) < 2 ^ k := Nat.pos_pow_of_pos k (by norm_num)
  have hn0 : 1 ≤ n := by
    by_contra hcon
    push_neg at hcon
    interval_cases n
    simp at hn1
    omega
  have hbb : n * 2 ^ k + 2 ^ k ≤ 2 * t.capacity := by
    match k with
    | 0 => simpa using by omega
    | k' + 1 => exact pow_block_bound h t.capacity k' n hcap hn0 hn2
  have hv := SegmentTree.node_val (fun a b => a + b) (fun a b c => add_assoc a b c)
    t.tree h t.capacity hcap hlen hinv k n hn1 hn2
  rw [hv, SegmentTree.psum, SegmentTree.leafSlice,
    show t.capacity + (n * 2 ^ k - t.capacity) = n * 2 ^ k by omega,
    show n * 2 ^ k - t.capacity + 2 ^ k - (n * 2 ^ k - t.capacity) = 2 ^ k by omega,
    foldNE_eq_foldl _ 0 (fun x => zero_add x) _
      (slice_ne_nil t.tree _ _ (by omega) (by omega)),
    foldl_add_eq_sum, zero_add]

/-- The bucket lemma for the retrieve descent: started at a node whose
stored sum strictly exceeds the nonnegative upper bound, the loop
terminates at a leaf of that node's block whose prefix-sum bucket
(relative to the block start) contains the upper bound. -/
theorem SegmentTree.retrieveAux_bucket (t : SegmentTree ℚ) (h : ℕ)
    (hcap : t.capacity = 2 ^ h) (hlen : t.tree.length = 2 * t.capacity)
    (hinv : SegmentTree.inv (fun a b => a + b) t.capacity t.tree) :
    ∀ (k : ℕ), ∀ (n fuel : ℕ) (ub : ℚ), t.capacity ≤ n * 2 ^ k →
      n * 2 ^ k < 2 * t.capacity → 0 ≤ ub → ub < t.tree.getI n → k < fuel →
      ∃ i, SegmentTree.retrieveAux t.tree t.capacity fuel n ub = some i ∧
        n * 2 ^ k - t.capacity ≤ i ∧ i < n * 2 ^ k - t.capacity + 2 ^ k ∧
        t.psum (n * 2 ^ k - t.capacity) i ≤ ub ∧
        ub < t.psum (n * 2 ^ k - t.capacity) (i + 1) := by
  intro k
  induction k with
  | zero =>
    intro n fuel ub hn1 hn2 hub0 hub1 hfuel
    simp only [pow_zero, mul_one] at hn1 hn2 ⊢
    obtain ⟨f, rfl⟩ : ∃ f, fuel = f + 1 := ⟨fuel - 1, by omega⟩
    rw [SegmentTree.retrieveAux, if_neg (by omega : ¬(n < t.capacity))]
    refine ⟨n - t.capacity, rfl, by omega, by omega, ?_, ?_⟩
    · rw [SegmentTree.psum_refl]
      exact hub0
    · have hv := SegmentTree.node_sum t h hcap hlen hinv 0 n (by simpa using hn1)
        (by simpa using hn2)
      simp only [pow_zero, mul_one] at hv
      rw [show n - t.capacity + 1 = n - t.capacity + 1 from rfl, ← hv] at *
      rwa [hv] at hub1
  | succ k ih =>
    intro n fuel ub hn1 hn2 hub0 hub1 hfuel
    have hc1 : 1 ≤ t.capacity := by rw [hcap]; exact Nat.pos_pow_of_pos h (by norm_num)
    have hP : (0:ℕ) < 2 ^ k := Nat.pos_pow_of_pos k (by norm_num)
    have hQ : (2:ℕ) ^ (k + 1) = 2 * 2 ^ k := by ring
    have hn0 : 1 ≤ n := by
      by_contra hcon
      push_neg at hcon
      interval_cases n
      simp at hn1
      omega
    have hnc : n < t.capacity := by
      have : 2 * n ≤ n * 2 ^ (k + 1) := by
        calc 2 * n = n * 2 := by ring
        _ ≤ n * 2 ^ (k + 1) := Nat.mul_le_mul_left n (by omega)
      omega
    have hbb := pow_block_bound h t.capacity k n hcap hn0 hn2
    obtain ⟨f, rfl⟩ : ∃ f, fuel = f + 1 := ⟨fuel - 1, by omega⟩
    rw [SegmentTree.retrieveAux, if_pos hnc]
    have hLval : t.tree.getI (2 * n)
        = t.psum (n * 2 ^ (k + 1) - t.capacity) (n * 2 ^ (k + 1) - t.capacity + 2 ^ k) := by
      have := SegmentTree.node_sum t h hcap hlen hinv k (2 * n)
        (by rw [show 2 * n * 2 ^ k = n * 2 ^ (k + 1) by ring]; omega)
        (by rw [show 2 * n * 2 ^ k = n * 2 ^ (k + 1) by ring]; omega)
      rwa [show 2 * n * 2 ^ k = n * 2 ^ (k + 1) by ring] at this
    have hRval : t.tree.getI (2 * n + 1)
        = t.psum (n * 2 ^ (k + 1) - t.capacity + 2 ^ k)
            (n * 2 ^ (k + 1) - t.capacity + 2 ^ (k + 1)) := by
      have := SegmentTree.node_sum t h hcap hlen hinv k (2 * n + 1)
        (by rw [show (2 * n + 1) * 2 ^ k = n * 2 ^ (k + 1) + 2 ^ k by ring]; omega)
        (by rw [show (2 * n + 1) * 2 ^ k = n * 2 ^ (k + 1) + 2 ^ k by ring]; omega)
      rwa [show (2 * n + 1) * 2 ^ k = n * 2 ^ (k + 1) + 2 ^ k by ring,
        show n * 2 ^ (k + 1) + 2 ^ k - t.capacity
          = n * 2 ^ (k + 1) - t.capacity + 2 ^ k by omega,
        show n * 2 ^ (k + 1) - t.capacity + 2 ^ k + 2 ^ k
          = n * 2 ^ (k + 1) - t.capacity + 2 ^ (k + 1) by omega] at this
    have hsum : t.tree.getI n = t.tree.getI (2 * n) + t.tree.getI (2 * n + 1) :=
      hinv n hnc hn0
    by_cases hbr : ub < t.tree.getI (2 * n)
    · rw [if_pos hbr]
      have ihh := ih (2 * n) f ub
        (by rw [show 2 * n * 2 ^ k = n * 2 ^ (k + 1) by ring]; omega)
        (by rw [show 2 * n * 2 ^ k = n * 2 ^ (k + 1) by ring]; omega)
        hub0 hbr (by omega)
      rw [show 2 * n * 2 ^ k = n * 2 ^ (k + 1) by ring] at ihh
      obtain ⟨i, hi, hb1, hb2, hb3, hb4⟩ := ihh
      exact ⟨i, hi, by omega, by omega, hb3, hb4⟩
    · rw [if_neg hbr]
      have hub0' : 0 ≤ ub - t.tree.getI (2 * n) := sub_nonneg.mpr (not_lt.mp hbr)
      have hub1' : ub - t.tree.getI (2 * n) < t.tree.getI (2 * n + 1) := by
        rw [hsum] at hub1
        linarith
      have ihh := ih (2 * n + 1) f (ub - t.tree.getI (2 * n))
        (by rw [show (2 * n + 1) * 2 ^ k = n * 2 ^ (k + 1) + 2 ^ k by ring]; omega)
        (by rw [show (2 * n + 1) * 2 ^ k = n * 2 ^ (k + 1) + 2 ^ k by ring]; omega)
        hub0' hub1' (by omega)
      rw [show (2 * n + 1) * 2 ^ k = n * 2 ^ (k + 1) + 2 ^ k by ring,
        show n * 2 ^ (k + 1) + 2 ^ k - t.capacity
          = n * 2 ^ (k + 1) - t.capacity + 2 ^ k by omega] at ihh
      obtain ⟨i, hi, hb1, hb2, hb3, hb4⟩ := ihh
      have hadd1 := SegmentTree.psum_add t (n * 2 ^ (k + 1) - t.capacity)
        (n * 2 ^ (k + 1) - t.capacity + 2 ^ k) i (by omega) (by omega)
      have hadd2 := SegmentTree.psum_add t (n * 2 ^ (k + 1) - t.capacity)
        (n * 2 ^ (k + 1) - t.capacity + 2 ^ k) (i + 1) (by omega) (by omega)
      refine ⟨i, hi, by omega, by omega, ?_, ?_⟩
      · rw [← hadd1, ← hLval]
        linarith
      · rw [← hadd2, ← hLval]
        linarith

/-- C1: on a SumSegmentTree with power-of-two capacity whose fold
invariant holds, for every upperbound with 0 ≤ upperbound below the total
leaf sum (the prefix sum over the whole capacity), retrieve returns the
external index i in [0, capacity) whose prefix-sum bucket contains the
upperbound: psum 0 i ≤ upperbound < psum 0 (i + 1). -/
theorem retrieve_bucket (t : SegmentTree ℚ) (h : ℕ)
    (hop : t.operation = fun a b => a + b)
    (hcap : t.capacity = 2 ^ h) (hlen : t.tree.length = 2 * t.capacity)
    (hinv : SegmentTree.inv (fun a b => a + b) t.capacity t.tree)
    (hT : 0 < t.psum 0 t.capacity) (ub : ℚ) (hub0 : 0 ≤ ub)
    (hub1 : ub < t.psum 0 t.capacity) :
    ∃ i, t.retrieve ub = some i ∧ i < t.capacity ∧
      t.psum 0 i ≤ ub ∧ ub < t.psum 0 (i + 1) := by
  have hch : h < t.capacity + 1 := by
    have := Nat.lt_two_pow h
    omega
  have hroot : t.tree.getI 1 = t.psum 0 t.capacity := by
    have := SegmentTree.node_sum t h hcap hlen hinv h 1
      (by rw [hcap, one_mul]) (by rw [hcap, one_mul]; have hpp : (0:ℕ) < 2 ^ h := Nat.pos_pow_of_pos h (by norm_num); omega)
    rwa [show 1 * 2 ^ h - t.capacity = 0 by omega, zero_add, ← hcap] at this
  have hb := SegmentTree.retrieveAux_bucket t h hcap hlen hinv h 1 (t.capacity + 1) ub
    (by rw [hcap, one_mul]) (by rw [hcap, one_mul]; have hpp : (0:ℕ) < 2 ^ h := Nat.pos_pow_of_pos h (by norm_num); omega) hub0 (by rwa [hroot]) hch
  rw [show 1 * 2 ^ h - t.capacity = 0 by omega, zero_add, ← hcap] at hb
  obtain ⟨i, hi, _, hb2, hb3, hb4⟩ := hb
  exact ⟨i, hi, by omega, hb3, hb4⟩

theorem retrieve_bucket_witness :
    ∃ i, (⟨2, [0, 3, 1, 2], fun a b => a + b⟩ : SegmentTree ℚ).retrieve (3 / 2) = some i ∧
      i < 2 ∧
      (⟨2, [0, 3, 1, 2], fun a b => a + b⟩ : SegmentTree ℚ).psum 0 i ≤ 3 / 2 ∧
      (3 / 2 : ℚ) < (⟨2, [0, 3, 1, 2], fun a b => a + b⟩ : SegmentTree ℚ).psum 0 (i + 1) :=
  retrieve_bucket ⟨2, [0, 3, 1, 2], fun a b => a + b⟩ 1 rfl (by decide) (by decide)
    (by
      intro j hj hj1
      have hj2 : j < 2 := hj
      interval_cases j
      with_unfolding_all rfl)
    (of_decide_eq_true (by with_unfolding_all rfl)) (3 / 2) (by norm_num)
    (of_decide_eq_true (by with_unfolding_all rfl))

/-- The retrieve loop, started at any node with power-of-two capacity,
always reaches a leaf (fuel above the level suffices) and returns an
index below the capacity, whatever the stored values are. -/
theorem SegmentTree.retrieveAux_total (l : List ℚ) (c h : ℕ) (hcap : c = 2 ^ h) :
    ∀ (k : ℕ), ∀ (n fuel : ℕ) (ub : ℚ), c ≤ n * 2 ^ k → n * 2 ^ k < 2 * c → k < fuel →
      ∃ i, SegmentTree.retrieveAux l c fuel n ub = some i ∧ i < c := by
  intro k
  induction k with
  | zero =>
    intro n fuel ub hn1 hn2 hfuel
    simp only [pow_zero, mul_one] at hn1 hn2
    obtain ⟨f, rfl⟩ : ∃ f, fuel = f + 1 := ⟨fuel - 1, by omega⟩
    rw [SegmentTree.retrieveAux, if_neg (by omega : ¬(n < c))]
    have hc1 : 1 ≤ c := by rw [hcap]; exact Nat.pos_pow_of_pos h (by norm_num)
    exact ⟨n - c, rfl, by omega⟩
  | succ k ih =>
    intro n fuel ub hn1 hn2 hfuel
    have hc1 : 1 ≤ c := by rw [hcap]; exact Nat.pos_pow_of_pos h (by norm_num)
    have hP : (0:ℕ) < 2 ^ k := Nat.pos_pow_of_pos k (by norm_num)
    have hQ : (2:ℕ) ^ (k + 1) = 2 * 2 ^ k := by ring
    have hn0 : 1 ≤ n := by
      by_contra hcon
      push_neg at hcon
      interval_cases n
      simp at hn1
      omega
    have hnc : n < c := by
      have : 2 * n ≤ n * 2 ^ (k + 1) := by
        calc 2 * n = n * 2 := by ring
        _ ≤ n * 2 ^ (k + 1) := Nat.mul_le_mul_left n (by omega)
      omega
    have hbb := pow_block_bound h c k n hcap hn0 hn2
    obtain ⟨f, rfl⟩ : ∃ f, fuel = f + 1 := ⟨fuel - 1, by omega⟩
    rw [SegmentTree.retrieveAux, if_pos hnc]
    by_cases hbr : ub < l.getI (2 * n)
    · rw [if_pos hbr]
      exact ih (2 * n) f ub
        (by rw [show 2 * n * 2 ^ k = n * 2 ^ (k + 1) by ring]; omega)
        (by rw [show 2 * n * 2 ^ k = n * 2 ^ (k + 1) by ring]; omega) (by omega)
    · rw [if_neg hbr]
      exact ih (2 * n + 1) f (ub - l.getI (2 * n))
        (by rw [show (2 * n + 1) * 2 ^ k = n * 2 ^ (k + 1) + 2 ^ k by ring]; omega)
        (by rw [show (2 * n + 1) * 2 ^ k = n * 2 ^ (k + 1) + 2 ^ k by ring]; omega)
        (by omega)

/-- C8: for a SumSegmentTree with power-of-two capacity in which all
leaf values equal the identity zero, retrieve(upperbound) terminates and
returns an index in [0, capacity); in particular retrieve(0) on an
all-zero tree is well defined. -/
theorem retrieve_total_on_zero (t : SegmentTree ℚ) (h : ℕ)
    (hop : t.operation = fun a b => a + b) (hcap : t.capacity = 2 ^ h)
    (hleaf : ∀ i, i < t.capacity → t.tree.getI (t.capacity + i) = 0) (ub : ℚ) :
    ∃ i, t.retrieve ub = some i ∧ i < t.capacity := by
  have hch : h < t.capacity + 1 := by
    have := Nat.lt_two_pow h
    omega
  exact SegmentTree.retrieveAux_total t.tree t.capacity h hcap h 1 (t.capacity + 1) ub
    (by rw [hcap, one_mul]) (by rw [hcap, one_mul]; have hpp : (0:ℕ) < 2 ^ h := Nat.pos_pow_of_pos h (by norm_num); omega) hch

theorem retrieve_total_on_zero_witness :
    ∃ i, (sumSegmentTree 2).retrieve 0 = some i ∧ i < 2 :=
  retrieve_total_on_zero (sumSegmentTree 2) 1 rfl (by decide)
    (by
      intro i hi
      have hi2 : i < 2 := hi
      interval_cases i <;> with_unfolding_all rfl) 0

/-- C7: one step of the retrieve descent at an internal position idx
below the capacity: the left branch is taken exactly when the left
child's stored sum strictly exceeds the current upperbound; otherwise,
including the case of exact equality, the right branch is taken and the
left child's sum is subtracted (on equality the remaining upperbound is
zero). -/
theorem retrieve_step (l : List ℚ) (c fuel idx : ℕ) (ub : ℚ) (h1 : idx < c) :
    (l.getI (2 * idx) > ub →
      SegmentTree.retrieveAux l c (fuel + 1) idx ub
        = SegmentTree.retrieveAux l c fuel (2 * idx) ub) ∧
    (¬(l.getI (2 * idx) > ub) →
      SegmentTree.retrieveAux l c (fuel + 1) idx ub
        = SegmentTree.retrieveAux l c fuel (2 * idx + 1) (ub - l.getI (2 * idx))) ∧
    (l.getI (2 * idx) = ub →
      SegmentTree.retrieveAux l c (fuel + 1) idx ub
        = SegmentTree.retrieveAux l c fuel (2 * idx + 1) (ub - l.getI (2 * idx)) ∧
      ub - l.getI (2 * idx) = 0) := by
  refine ⟨?_, ?_, ?_⟩
  · intro hgt
    rw [SegmentTree.retrieveAux, if_pos h1, if_pos hgt]
  · intro hle
    rw [SegmentTree.retrieveAux, if_pos h1, if_neg hle]
  · intro heq
    constructor
    · rw [SegmentTree.retrieveAux, if_pos h1, if_neg (by rw [heq]; exact lt_irrefl ub)]
    · rw [heq, sub_self]

theorem retrieve_step_witness :
    (([0, 3, 1, 2] : List ℚ).getI 2 > (1 : ℚ) →
      SegmentTree.retrieveAux [0, 3, 1, 2] 2 2 1 1
        = SegmentTree.retrieveAux [0, 3, 1, 2] 2 1 2 1) ∧
    (¬(([0, 3, 1, 2] : List ℚ).getI 2 > (1 : ℚ)) →
      SegmentTree.retrieveAux [0, 3, 1, 2] 2 2 1 1
        = SegmentTree.retrieveAux [0, 3, 1, 2] 2 1 3 (1 - ([0, 3, 1, 2] : List ℚ).getI 2)) ∧
    (([0, 3, 1, 2] : List ℚ).getI 2 = (1 : ℚ) →
      SegmentTree.retrieveAux [0, 3, 1, 2] 2 2 1 1
        = SegmentTree.retrieveAux [0, 3, 1, 2] 2 1 3 (1 - ([0, 3, 1, 2] : List ℚ).getI 2) ∧
      (1 : ℚ) - ([0, 3, 1, 2] : List ℚ).getI 2 = 0) :=
  retrieve_step [0, 3, 1, 2] 2 1 1 1 (by decide)
